import Mathlib

/-!
Verification of the multiproof engine in `crates/trie/common/src/proofs.rs`
(mantle-xyz/reth). The Rust module is shallowly embedded: hashed values are
naturals, nibble paths are lists of naturals, the Rust `HashMap`s become
association lists, and the external primitives (keccak-256, RLP trie-node /
account / integer codecs and the generic `verify_proof` node-chain checker)
are abstracted into a record of functions that every theorem quantifies over.
-/

deriving instance DecidableEq for Except

namespace TrieProofs

/-- Nibble path: sequence of half-byte values obtained by unpacking a hash. -/
abbrev Nib := List Nat

/-- Raw byte string (RLP-encoded trie node or value). -/
abbrev Bytes := List Nat

/-- A 256-bit hash value. -/
abbrev B256 := Nat

/-- A 160-bit account address. -/
abbrev Address := Nat

/-- Unsigned 256-bit integer. -/
abbrev U256 := Nat

/-- A 16-bit branch-node child mask. -/
abbrev TrieMask := Nat

/-- RLP decode failure (`alloy_rlp::Error`), carried abstractly. -/
abbrev RlpError := Nat

/-- Proof verification failure (`ProofVerificationError`), carried abstractly. -/
abbrev VerifyError := Nat

/-- Hash of the empty bytecode (`KECCAK_EMPTY`). -/
def KECCAK_EMPTY : B256 :=
  0xc5d2460186f7233c927e7db2dcc703c0e500b653ca82273b7bfad8045d85a470

/-- Root hash of the empty trie (`EMPTY_ROOT_HASH`). -/
def EMPTY_ROOT_HASH : B256 :=
  0x56e81f171bcc55a6ff8345e692c0f86e5b48e01b996cadc001622fb5e363b421

/-- RLP code of the empty string (`EMPTY_STRING_CODE`). -/
def EMPTY_STRING_CODE : Nat := 0x80

/-- Unpack a 32-byte hash into its 64 nibbles, most significant first
(`Nibbles::unpack`). -/
def Nibbles.unpack (h : B256) : Nib :=
  (List.range 64).map (fun i => h / 16 ^ (63 - i) % 16)

/-- Decoded trie node (`alloy_trie::nodes::TrieNode`). Only the leaf shape is
inspected by this module; the other constructors' payloads are irrelevant
here and carried opaquely. -/
inductive TrieNode where
  | emptyRoot : TrieNode
  | branch (stateMask : TrieMask) : TrieNode
  | extensionNode (key : Nib) : TrieNode
  | leaf (key : Nib) (value : Bytes) : TrieNode
deriving DecidableEq

/-- RLP shape of an account stored in the state trie (`TrieAccount`). -/
structure TrieAccount where
  nonce : Nat
  balance : Nat
  storage_root : B256
  code_hash : B256
deriving DecidableEq

/-- Modelled from the spec: the decoded account info carried by an
`AccountProof` (the `reth_primitives_traits::Account` record is not part of
the sources shown): balance, nonce and an optional bytecode hash, absent
meaning "no bytecode" per the empty-bytecode normalization of section 4.2. -/
structure Account where
  nonce : Nat
  balance : Nat
  bytecode_hash : Option B256
deriving DecidableEq

/-- Modelled from the spec: `Account::default()` — the all-zero account used
by `info.unwrap_or_default()` in verification (section 4.4). -/
def Account.default : Account :=
  { nonce := 0, balance := 0, bytecode_hash := none }

/-- Modelled from the spec: `Account::into_trie_account(storage_root)` builds
the canonical state-trie record `(info, storage_root)` of section 4.4; an
absent bytecode hash stands for the well-known empty-bytecode hash (the
inverse of the normalization in section 4.2 step 3). -/
def Account.into_trie_account (a : Account) (storage_root : B256) : TrieAccount :=
  { nonce := a.nonce, balance := a.balance, storage_root := storage_root,
    code_hash := a.bytecode_hash.getD KECCAK_EMPTY }

/-! ## Association-list model of the hash maps

The Rust module stores its containers in `HashMap`s (`ProofNodes` wraps one).
They are modelled as association lists; `mapInsert` overwrites the first
binding of the key, `mapExtend` folds the other map's entries in, matching
`HashMap::extend`'s other-side-wins semantics. The `Nodup` invariant on keys
that every `HashMap` maintains is stated as explicit well-formedness below. -/

/-- Lookup of the first binding of a key. -/
def mapLookup {κ ν : Type} [DecidableEq κ] : List (κ × ν) → κ → Option ν
  | [], _ => none
  | e :: rest, k => if e.1 = k then some e.2 else mapLookup rest k

/-- Insert, overwriting the first binding of the key if present. -/
def mapInsert {κ ν : Type} [DecidableEq κ] : List (κ × ν) → κ → ν → List (κ × ν)
  | [], k, v => [(k, v)]
  | e :: rest, k, v => if e.1 = k then (k, v) :: rest else e :: mapInsert rest k v

/-- Union of two maps; bindings of `o` win on common keys (`HashMap::extend`). -/
def mapExtend {κ ν : Type} [DecidableEq κ] (m o : List (κ × ν)) : List (κ × ν) :=
  o.foldl (fun acc e => mapInsert acc e.1 e.2) m

/-- Keys of a map. -/
def mapKeys {κ ν : Type} (m : List (κ × ν)) : List κ := m.map Prod.fst

/-- Key-membership test (`contains_key`). -/
def mapContains {κ ν : Type} [DecidableEq κ] (m : List (κ × ν)) (k : κ) : Bool :=
  (mapLookup m k).isSome

/-- Raw proof-node container (`alloy_trie::proof::ProofNodes`): path ↦ bytes. -/
abbrev ProofNodes := List (Nib × Bytes)

/-- Decoded proof-node container (`DecodedProofNodes`): path ↦ decoded node. -/
abbrev DecodedProofNodes := List (Nib × TrieNode)

/-- Lexicographic comparison of nibble paths (`Nibbles` `Ord`): first
differing nibble decides, a strict prefix sorts before its extensions. -/
def nibblesLe : Nib → Nib → Bool
  | [], _ => true
  | _ :: _, [] => false
  | a :: as, b :: bs => if a < b then true else if b < a then false else nibblesLe as bs

/-- Insert an entry into a list sorted by `nibblesLe` on the path component. -/
def insertSorted {ν : Type} (e : Nib × ν) : List (Nib × ν) → List (Nib × ν)
  | [] => [e]
  | f :: rest => if nibblesLe e.1 f.1 then e :: f :: rest else f :: insertSorted e rest

/-- Sort entries by path (`sort_unstable_by` / itertools `sorted_by` with
`a.0.cmp(b.0)` in the source). -/
def sortByPath {ν : Type} : List (Nib × ν) → List (Nib × ν)
  | [] => []
  | e :: rest => insertSorted e (sortByPath rest)

/-- All entries whose path is a prefix of the target (`matching_nodes`). -/
def matchingNodes {ν : Type} (m : List (Nib × ν)) (t : Nib) : List (Nib × ν) :=
  m.filter (fun e => e.1.isPrefixOf t)

/-- Matching entries sorted by path (`matching_nodes_sorted`, and the
`matching_nodes_iter(..).sorted_by(|a, b| a.0.cmp(b.0))` call chain). -/
def matchingNodesSorted {ν : Type} (m : List (Nib × ν)) (t : Nib) : List (Nib × ν) :=
  sortByPath (matchingNodes m t)

/-- External primitives consumed as black boxes (spec section 6): keccak-256
on addresses and slots, the RLP codecs, and the generic node-chain verifier
`verify_proof(root, path, expected, proof)`. -/
structure Ext where
  keccakAddr : Address → B256
  keccakSlot : B256 → B256
  decodeNode : Bytes → Except RlpError TrieNode
  decodeAccount : Bytes → Except RlpError TrieAccount
  decodeU256 : Bytes → Except RlpError U256
  encodeTrieAccount : TrieAccount → Bytes
  encodeFixedU256 : U256 → Bytes
  verifyProof : B256 → Nib → Option Bytes → List Bytes → Except VerifyError Unit

/-- The merkle multiproof of a storage trie (`StorageMultiProof`). -/
structure StorageMultiProof where
  root : B256
  subtree : ProofNodes
  branch_node_hash_masks : List (Nib × TrieMask)
  branch_node_tree_masks : List (Nib × TrieMask)
deriving DecidableEq

/-- The decoded merkle multiproof of a storage trie
(`DecodedStorageMultiProof`). -/
structure DecodedStorageMultiProof where
  root : B256
  subtree : DecodedProofNodes
  branch_node_hash_masks : List (Nib × TrieMask)
  branch_node_tree_masks : List (Nib × TrieMask)
deriving DecidableEq

/-- The state multiproof of target accounts (`MultiProof`). -/
structure MultiProof where
  account_subtree : ProofNodes
  branch_node_hash_masks : List (Nib × TrieMask)
  branch_node_tree_masks : List (Nib × TrieMask)
  storages : List (B256 × StorageMultiProof)
deriving DecidableEq

/-- The merkle proof of one storage entry (`StorageProof`). -/
structure StorageProof where
  key : B256
  nibbles : Nib
  value : U256
  proof : List Bytes
deriving DecidableEq

/-- The decoded merkle proof of one storage entry (`DecodedStorageProof`). -/
structure DecodedStorageProof where
  key : B256
  nibbles : Nib
  value : U256
  proof : List TrieNode
deriving DecidableEq

/-- The merkle proof with the relevant account info (`AccountProof`). -/
structure AccountProof where
  address : Address
  info : Option Account
  proof : List Bytes
  storage_root : B256
  storage_proofs : List StorageProof
deriving DecidableEq

/-- Embeds `StorageProof::new(key)`: hashed-key nibbles, zero value, no nodes. -/
def StorageProof.new (E : Ext) (key : B256) : StorageProof :=
  { key := key, nibbles := Nibbles.unpack (E.keccakSlot key), value := 0, proof := [] }

/-- Embeds `StorageMultiProof::empty()`: the canonical empty-trie storage multiproof. -/
def StorageMultiProof.empty : StorageMultiProof :=
  { root := EMPTY_ROOT_HASH,
    subtree := [([], [EMPTY_STRING_CODE])],
    branch_node_hash_masks := [],
    branch_node_tree_masks := [] }

/-- Labeled `'value` block of `StorageMultiProof::storage_proof`: inspect the
last node of the proof; a leaf whose key suffix completes the path resolves
to its decoded unsigned 256-bit value, every other outcome to zero; node or
value decode failures propagate. -/
def storageValueFromProof (E : Ext) (nibbles : Nib) (proof : List Bytes) :
    Except RlpError U256 :=
  match proof.getLast? with
  | some last =>
    match E.decodeNode last with
    | Except.error e => Except.error e
    | Except.ok (TrieNode.leaf key value) =>
      if key.isSuffixOf nibbles then E.decodeU256 value else Except.ok 0
    | Except.ok _ => Except.ok 0
  | none => Except.ok 0

/-- Embeds `StorageMultiProof::storage_proof(slot)`: hash the slot, collect the
matching subtree nodes sorted by path, and resolve the value from the last
node when it is a leaf whose key suffix completes the path. -/
def StorageMultiProof.storage_proof (s : StorageMultiProof) (E : Ext) (slot : B256) :
    Except RlpError StorageProof :=
  let nibbles := Nibbles.unpack (E.keccakSlot slot)
  let proof := (matchingNodesSorted s.subtree nibbles).map Prod.snd
  (storageValueFromProof E nibbles proof).map
    (fun value => { key := slot, nibbles := nibbles, value := value, proof := proof })

/-- Labeled `'value` block of `DecodedStorageMultiProof::storage_proof`: the
same resolution rule, the leaf check done directly on the decoded node. -/
def decodedStorageValueFromProof (E : Ext) (nibbles : Nib) (proof : List TrieNode) :
    Except RlpError U256 :=
  match proof.getLast? with
  | some (TrieNode.leaf key value) =>
    if key.isSuffixOf nibbles then E.decodeU256 value else Except.ok 0
  | some _ => Except.ok 0
  | none => Except.ok 0

/-- Embeds `DecodedStorageMultiProof::storage_proof(slot)`: same algorithm on
pre-decoded nodes, the last-node leaf check done without a decode step. -/
def DecodedStorageMultiProof.storage_proof (d : DecodedStorageMultiProof) (E : Ext)
    (slot : B256) : Except RlpError DecodedStorageProof :=
  let nibbles := Nibbles.unpack (E.keccakSlot slot)
  let proof := (matchingNodesSorted d.subtree nibbles).map Prod.snd
  (decodedStorageValueFromProof E nibbles proof).map
    (fun value => { key := slot, nibbles := nibbles, value := value, proof := proof })

/-- Embeds `MultiProof::is_empty()`. -/
def MultiProof.is_empty (m : MultiProof) : Bool :=
  m.account_subtree.isEmpty && m.branch_node_hash_masks.isEmpty &&
    m.branch_node_tree_masks.isEmpty && m.storages.isEmpty

/-- Embeds `MultiProof::account_proof_nodes(path)`. -/
def MultiProof.account_proof_nodes (m : MultiProof) (path : Nib) : List (Nib × Bytes) :=
  matchingNodesSorted m.account_subtree path

/-- Embeds `MultiProof::storage_proof_nodes(hashed_address, slots)`. -/
def MultiProof.storage_proof_nodes (m : MultiProof) (hashed_address : B256)
    (slots : List B256) : List (B256 × List (Nib × Bytes)) :=
  match mapLookup m.storages hashed_address with
  | some storage_mp =>
    slots.map (fun slot => (slot, matchingNodesSorted storage_mp.subtree (Nibbles.unpack slot)))
  | none => []

/-- Slot loop of `MultiProof::account_proof`: for each requested slot, either
extract from the storage multiproof or synthesize `StorageProof::new(slot)`,
propagating the first decode error. -/
def collectSlots (E : Ext) (storage_multiproof : Option StorageMultiProof) :
    List B256 → Except RlpError (List StorageProof)
  | [] => Except.ok []
  | slot :: rest =>
    let proofE :=
      match storage_multiproof with
      | some multiproof => multiproof.storage_proof E slot
      | none => Except.ok (StorageProof.new E slot)
    match proofE with
    | Except.error e => Except.error e
    | Except.ok p =>
      match collectSlots E storage_multiproof rest with
      | Except.error e => Except.error e
      | Except.ok ps => Except.ok (p :: ps)

/-- Labeled `'info` block of `MultiProof::account_proof`: inspect the last
node of the proof; a leaf whose key suffix completes the path decodes as the
canonical state account, its code hash normalized so that the empty-bytecode
hash becomes an absent bytecode hash; every other outcome yields no info. -/
def accountInfoFromProof (E : Ext) (nibbles : Nib) (proof : List Bytes) :
    Except RlpError (Option Account) :=
  match proof.getLast? with
  | some last =>
    match E.decodeNode last with
    | Except.error e => Except.error e
    | Except.ok (TrieNode.leaf leafKey leafValue) =>
      if leafKey.isSuffixOf nibbles then
        match E.decodeAccount leafValue with
        | Except.error e => Except.error e
        | Except.ok account =>
          Except.ok (some
            { balance := account.balance, nonce := account.nonce,
              bytecode_hash :=
                if account.code_hash ≠ KECCAK_EMPTY then some account.code_hash else none })
      else Except.ok none
    | Except.ok _ => Except.ok none
  | none => Except.ok none

/-- Embeds `MultiProof::account_proof(address, slots)`: the central extraction
algorithm of section 4.2. -/
def MultiProof.account_proof (m : MultiProof) (E : Ext) (address : Address)
    (slots : List B256) : Except RlpError AccountProof :=
  let hashed_address := E.keccakAddr address
  let nibbles := Nibbles.unpack hashed_address
  let proof := (m.account_proof_nodes nibbles).map Prod.snd
  match accountInfoFromProof E nibbles proof with
  | Except.error e => Except.error e
  | Except.ok info =>
    let storage_multiproof := mapLookup m.storages hashed_address
    let storage_root := (storage_multiproof.map StorageMultiProof.root).getD EMPTY_ROOT_HASH
    (collectSlots E storage_multiproof slots).map (fun storage_proofs =>
      { address := address, info := info, proof := proof,
        storage_root := storage_root, storage_proofs := storage_proofs })

/-- Merge of one occupied storage entry in `MultiProof::extend`: keep the
existing root, union subtree and both mask maps with the other side's. -/
def extendStorageEntry (entry other : StorageMultiProof) : StorageMultiProof :=
  { root := entry.root,
    subtree := mapExtend entry.subtree other.subtree,
    branch_node_hash_masks :=
      mapExtend entry.branch_node_hash_masks other.branch_node_hash_masks,
    branch_node_tree_masks :=
      mapExtend entry.branch_node_tree_masks other.branch_node_tree_masks }

/-- Embeds `MultiProof::extend(other)`: union the account subtree and both mask
maps, and merge the storages map entrywise. -/
def MultiProof.extend (m other : MultiProof) : MultiProof :=
  { account_subtree := mapExtend m.account_subtree other.account_subtree,
    branch_node_hash_masks :=
      mapExtend m.branch_node_hash_masks other.branch_node_hash_masks,
    branch_node_tree_masks :=
      mapExtend m.branch_node_tree_masks other.branch_node_tree_masks,
    storages := other.storages.foldl (fun acc es =>
      mapInsert acc es.1
        (match mapLookup acc es.1 with
         | some entry => extendStorageEntry entry es.2
         | none => es.2)) m.storages }

/-- Embeds `StorageProof::verify(root)`: expected value is absent when the value is
zero, else its canonical fixed-size encoding; delegate to `verify_proof`. -/
def StorageProof.verify (sp : StorageProof) (E : Ext) (root : B256) :
    Except VerifyError Unit :=
  let expected := if sp.value = 0 then none else some (E.encodeFixedU256 sp.value)
  E.verifyProof root sp.nibbles expected sp.proof

/-- Fail-fast verification of a list of storage proofs (the `for` loop in
`AccountProof::verify`). -/
def verifyStorageAll (E : Ext) (root : B256) : List StorageProof → Except VerifyError Unit
  | [] => Except.ok ()
  | sp :: rest =>
    match sp.verify E root with
    | Except.error e => Except.error e
    | Except.ok _ => verifyStorageAll E root rest

/-- Embeds `AccountProof::verify(root)`: verify the storage proofs against the
stored storage root, then the account chain against the given root. -/
def AccountProof.verify (ap : AccountProof) (E : Ext) (root : B256) :
    Except VerifyError Unit :=
  match verifyStorageAll E ap.storage_root ap.storage_proofs with
  | Except.error e => Except.error e
  | Except.ok _ =>
    let expected :=
      if ap.info.isNone && (ap.storage_root == EMPTY_ROOT_HASH) then none
      else
        some (E.encodeTrieAccount
          ((ap.info.getD Account.default).into_trie_account ap.storage_root))
    E.verifyProof root (Nibbles.unpack (E.keccakAddr ap.address)) expected ap.proof

/-! ## Well-formedness

Invariants every Rust `HashMap` maintains by construction: keys are unique.
Stated explicitly because the association-list model permits duplicates. -/

/-- Key uniqueness of the maps inside a storage multiproof. -/
def smpWF (s : StorageMultiProof) : Prop :=
  (mapKeys s.subtree).Nodup ∧ (mapKeys s.branch_node_hash_masks).Nodup ∧
    (mapKeys s.branch_node_tree_masks).Nodup

/-- Key uniqueness of the maps inside a multiproof, inner maps included. -/
def mpWF (m : MultiProof) : Prop :=
  (mapKeys m.account_subtree).Nodup ∧ (mapKeys m.branch_node_hash_masks).Nodup ∧
    (mapKeys m.branch_node_tree_masks).Nodup ∧ (mapKeys m.storages).Nodup ∧
    ∀ e ∈ m.storages, smpWF e.2

instance (s : StorageMultiProof) : Decidable (smpWF s) := by
  unfold smpWF; infer_instance

instance (m : MultiProof) : Decidable (mpWF m) := by
  unfold mpWF; infer_instance

/-! ## Concrete instantiation of the external primitives

Used by the witnesses: identity hashing and simple tagged codecs, enough to
exercise every branch of the embedded algorithms on concrete inputs. -/

/-- Concrete external primitives for witness evaluation: identity hashes, a
tagged node codec (`0, n, key.., value..` is a leaf with an `n`-nibble key),
singleton-list integer encoding, and an always-accepting verifier. -/
def testExt : Ext :=
  { keccakAddr := fun a => a,
    keccakSlot := fun s => s,
    decodeNode := fun b =>
      match b with
      | 0 :: n :: rest => Except.ok (TrieNode.leaf (rest.take n) (rest.drop n))
      | 1 :: _ => Except.ok (TrieNode.branch 0)
      | [128] => Except.ok TrieNode.emptyRoot
      | _ => Except.error 1,
    decodeAccount := fun b =>
      match b with
      | [n, bal, sr, ch] =>
        Except.ok { nonce := n, balance := bal, storage_root := sr, code_hash := ch }
      | _ => Except.error 2,
    decodeU256 := fun b =>
      match b with
      | [v] => Except.ok v
      | _ => Except.error 3,
    encodeTrieAccount := fun ta => [ta.nonce, ta.balance, ta.storage_root, ta.code_hash],
    encodeFixedU256 := fun v => [v],
    verifyProof := fun _ _ _ _ => Except.ok () }

/-- Concrete primitives whose verifier accepts exactly the absent expected
value, used to exercise the failure path of proof verification. -/
def testExtSel : Ext :=
  { testExt with verifyProof := fun _ _ expected _ =>
      match expected with
      | none => Except.ok ()
      | some _ => Except.error 9 }

/-- Concrete multiproof holding one full account leaf at the root path. -/
def mpLeaf : MultiProof :=
  { account_subtree := [([], [0, 2, 0, 0, 5, 7, 9, 11])],
    branch_node_hash_masks := [], branch_node_tree_masks := [], storages := [] }

/-- Concrete account proof extracted from `mpLeaf` for address `0`. -/
def apLeaf : AccountProof :=
  { address := 0, info := some { nonce := 5, balance := 7, bytecode_hash := some 11 },
    proof := [[0, 2, 0, 0, 5, 7, 9, 11]], storage_root := EMPTY_ROOT_HASH,
    storage_proofs := [] }

/-- Concrete account proof extracted from `mpLeaf` for address `0`, slot `3`. -/
def apSlot : AccountProof :=
  { address := 0, info := some { nonce := 5, balance := 7, bytecode_hash := some 11 },
    proof := [[0, 2, 0, 0, 5, 7, 9, 11]], storage_root := EMPTY_ROOT_HASH,
    storage_proofs := [{ key := 3, nibbles := Nibbles.unpack 3, value := 0, proof := [] }] }

/-- Concrete storage multiproof holding one slot leaf at the root path. -/
def smpA : StorageMultiProof :=
  { root := 42, subtree := [([], [0, 2, 0, 0, 77])],
    branch_node_hash_masks := [], branch_node_tree_masks := [] }

/-- Decoded twin of `smpA`. -/
def dmpA : DecodedStorageMultiProof :=
  { root := 42, subtree := [([], TrieNode.leaf [0, 0] [77])],
    branch_node_hash_masks := [], branch_node_tree_masks := [] }

/-- Concrete storage proof extracted from `smpA` for slot `0`. -/
def spSeven : StorageProof :=
  { key := 0, nibbles := Nibbles.unpack 0, value := 77, proof := [[0, 2, 0, 0, 77]] }

/-- A storage proof with zero value (verifies under `testExtSel`). -/
def spZero : StorageProof := { key := 0, nibbles := [], value := 0, proof := [] }

/-- A storage proof with a nonzero value (rejected by `testExtSel`). -/
def spThree : StorageProof := { key := 1, nibbles := [], value := 3, proof := [] }

/-- Account proof whose second storage proof fails verification. -/
def apTwo : AccountProof :=
  { address := 0, info := none, proof := [], storage_root := 4,
    storage_proofs := [spZero, spThree] }

/-- Storage multiproof entry used on the left of merges. -/
def smpX : StorageMultiProof :=
  { root := 5, subtree := [([0], [9])],
    branch_node_hash_masks := [([0], 3)], branch_node_tree_masks := [([0], 4)] }

/-- Storage multiproof entry used on the right of merges; shares root `5`. -/
def smpY : StorageMultiProof :=
  { root := 5, subtree := [([1], [8])],
    branch_node_hash_masks := [([0], 30)], branch_node_tree_masks := [([0], 40)] }

/-- Left multiproof for merge fixtures. -/
def mpA : MultiProof :=
  { account_subtree := [([0], [1, 1])], branch_node_hash_masks := [([0], 1)],
    branch_node_tree_masks := [([0], 2)], storages := [(1, smpX)] }

/-- Right multiproof overlapping `mpA` on account `1` and mask path `[0]`. -/
def mpB : MultiProof :=
  { account_subtree := [([1], [2, 2])], branch_node_hash_masks := [([0], 7)],
    branch_node_tree_masks := [([0], 8)], storages := [(1, smpY)] }

/-- Right multiproof disjoint from `mpA` in every key set. -/
def mpC : MultiProof :=
  { account_subtree := [([1], [2, 2])], branch_node_hash_masks := [([1], 7)],
    branch_node_tree_masks := [([1], 8)], storages := [(2, smpY)] }

/-- Storage multiproof whose matched chain holds undecodable bytes at every
position, the last included. -/
def smpBad : StorageMultiProof :=
  { root := 0, subtree := [([], [5, 5]), ([0], [9, 9])],
    branch_node_hash_masks := [], branch_node_tree_masks := [] }

/-! ## Association-list lemmas -/

theorem mapLookup_insert {κ ν : Type} [DecidableEq κ] (m : List (κ × ν)) (k k' : κ) (v : ν) :
    mapLookup (mapInsert m k v) k' = if k' = k then some v else mapLookup m k' := by
  induction m with
  | nil =>
    rcases eq_or_ne k' k with h | h
    · subst h; simp [mapInsert, mapLookup]
    · simp [mapInsert, mapLookup, h, Ne.symm h]
  | cons e rest ih =>
    by_cases he : e.1 = k
    · subst he
      rcases eq_or_ne k' e.1 with h | h
      · subst h; simp [mapInsert, mapLookup]
      · simp [mapInsert, mapLookup, h, Ne.symm h]
    · rcases eq_or_ne k' k with h | h
      · subst h
        simp [mapInsert, mapLookup, he, ih]
      · by_cases he' : e.1 = k' <;> simp [mapInsert, mapLookup, he, he', ih, h]

theorem mapLookup_eq_none {κ ν : Type} [DecidableEq κ] (m : List (κ × ν)) (k : κ) :
    mapLookup m k = none ↔ k ∉ mapKeys m := by
  induction m with
  | nil => simp [mapLookup, mapKeys]
  | cons e rest ih =>
    by_cases he : e.1 = k <;> simp [mapLookup, mapKeys, he, ih] <;> tauto

theorem mapLookup_mem {κ ν : Type} [DecidableEq κ] {m : List (κ × ν)} {k : κ} {v : ν}
    (h : mapLookup m k = some v) : (k, v) ∈ m := by
  induction m with
  | nil => simp [mapLookup] at h
  | cons e rest ih =>
    by_cases he : e.1 = k
    · simp only [mapLookup, he, if_pos] at h
      cases h
      exact List.mem_cons.mpr (Or.inl (by rw [← he]))
    · simp only [mapLookup, he, if_neg, ite_false] at h
      exact List.mem_cons_of_mem _ (ih h)

theorem mem_mapLookup {κ ν : Type} [DecidableEq κ] {m : List (κ × ν)} {k : κ} {v : ν}
    (hn : (mapKeys m).Nodup) (h : (k, v) ∈ m) : mapLookup m k = some v := by
  induction m with
  | nil => simp at h
  | cons e rest ih =>
    simp only [mapKeys, List.map_cons, List.nodup_cons] at hn
    rcases List.mem_cons.mp h with h | h
    · rw [← h]
      simp [mapLookup]
    · have hk : e.1 ≠ k := by
        intro he
        exact hn.1 (he ▸ (List.mem_map.mpr ⟨(k, v), h, rfl⟩))
      simp only [mapLookup, hk, ite_false, if_neg]
      exact ih hn.2 h

theorem mapKeys_insert {κ ν : Type} [DecidableEq κ] (m : List (κ × ν)) (k : κ) (v : ν) :
    ∀ k', k' ∈ mapKeys (mapInsert m k v) ↔ (k' ∈ mapKeys m ∨ k' = k) := by
  intro k'
  induction m with
  | nil => simp [mapInsert, mapKeys]
  | cons e rest ih =>
    by_cases he : e.1 = k
    · subst he
      simp [mapInsert, mapKeys] at ih ⊢
      tauto
    · simp [mapInsert, mapKeys, he] at ih ⊢
      tauto

theorem nodup_mapKeys_insert {κ ν : Type} [DecidableEq κ] {m : List (κ × ν)} (k : κ) (v : ν)
    (hn : (mapKeys m).Nodup) : (mapKeys (mapInsert m k v)).Nodup := by
  induction m with
  | nil => simp [mapInsert, mapKeys]
  | cons e rest ih =>
    simp only [mapKeys, List.map_cons, List.nodup_cons] at hn
    by_cases he : e.1 = k
    · subst he
      simp only [mapInsert, if_pos, ite_true, mapKeys, List.map_cons, List.nodup_cons]
      exact hn
    · simp only [mapInsert, he, ite_false, if_neg, mapKeys, List.map_cons, List.nodup_cons]
      refine ⟨fun hmem => ?_, ih hn.2⟩
      rcases (mapKeys_insert rest k v e.1).mp hmem with h | h
      · exact hn.1 h
      · exact he h

theorem mapInsert_append {κ ν : Type} [DecidableEq κ] {m : List (κ × ν)} {k : κ} (v : ν)
    (h : k ∉ mapKeys m) : mapInsert m k v = m ++ [(k, v)] := by
  induction m with
  | nil => simp [mapInsert]
  | cons e rest ih =>
    simp only [mapKeys, List.map_cons, List.mem_cons] at h
    push_neg at h
    simp only [mapInsert, Ne.symm h.1, ite_false, if_neg, List.cons_append]
    rw [ih h.2]

theorem mapInsert_lookup_self {κ ν : Type} [DecidableEq κ] {m : List (κ × ν)} {k : κ} {v : ν}
    (h : mapLookup m k = some v) : mapInsert m k v = m := by
  induction m with
  | nil => simp [mapLookup] at h
  | cons e rest ih =>
    by_cases he : e.1 = k
    · simp only [mapLookup, he, if_pos] at h
      cases h
      simp only [mapInsert, he, if_pos, ite_true]
      rw [← he]
    · simp only [mapLookup, he, if_neg, ite_false] at h
      simp only [mapInsert, he, if_neg, ite_false]
      rw [ih h]

theorem mapExtend_lookup {κ ν : Type} [DecidableEq κ] (m o : List (κ × ν)) (k : κ)
    (ho : (mapKeys o).Nodup) :
    mapLookup (mapExtend m o) k = (mapLookup o k).orElse (fun _ => mapLookup m k) := by
  induction o generalizing m with
  | nil => simp [mapExtend, mapLookup]
  | cons e rest ih =>
    simp only [mapKeys, List.map_cons, List.nodup_cons] at ho
    have step : mapExtend m (e :: rest) = mapExtend (mapInsert m e.1 e.2) rest := by
      simp [mapExtend]
    rw [step, ih _ ho.2]
    by_cases he : e.1 = k
    · subst he
      have : mapLookup rest e.1 = none :=
        (mapLookup_eq_none rest e.1).mpr ho.1
      simp [mapLookup, this, mapLookup_insert]
    · simp only [mapLookup, he, if_neg, ite_false]
      rcases h : mapLookup rest k with _ | v
      · simp [mapLookup_insert, Ne.symm he]
      · simp

theorem mapExtend_append {κ ν : Type} [DecidableEq κ] {m o : List (κ × ν)}
    (ho : (mapKeys o).Nodup) (hd : ∀ k, k ∈ mapKeys o → k ∉ mapKeys m) :
    mapExtend m o = m ++ o := by
  induction o generalizing m with
  | nil => simp [mapExtend]
  | cons e rest ih =>
    simp only [mapKeys, List.map_cons, List.nodup_cons] at ho
    have step : mapExtend m (e :: rest) = mapExtend (mapInsert m e.1 e.2) rest := by
      simp [mapExtend]
    have hem : e.1 ∉ mapKeys m := hd e.1 (by simp [mapKeys])
    rw [step, mapInsert_append e.2 hem]
    have hd' : ∀ k, k ∈ mapKeys rest → k ∉ mapKeys (m ++ [(e.1, e.2)]) := by
      intro k hk
      simp only [mapKeys, List.map_append, List.mem_append, List.map_cons] at hd ⊢
      push_neg
      refine ⟨fun hm => hd k (List.mem_cons.mpr (Or.inr hk)) hm, ?_⟩
      simp only [List.map_nil, List.mem_singleton, List.mem_cons]
      intro hke
      rcases hke with hke | hke
      · exact ho.1 (hke ▸ hk)
      · simp at hke
    rw [ih ho.2 hd']
    simp

theorem mapExtend_self_eq {κ ν : Type} [DecidableEq κ] {m o : List (κ × ν)}
    (h : ∀ e ∈ o, mapLookup m e.1 = some e.2) : mapExtend m o = m := by
  induction o with
  | nil => simp [mapExtend]
  | cons e rest ih =>
    have step : mapExtend m (e :: rest) = mapExtend (mapInsert m e.1 e.2) rest := by
      simp [mapExtend]
    rw [step, mapInsert_lookup_self (h e (by simp))]
    exact ih (fun e' he' => h e' (by simp [he']))

theorem mapExtend_self {κ ν : Type} [DecidableEq κ] {m : List (κ × ν)}
    (hn : (mapKeys m).Nodup) : mapExtend m m = m :=
  mapExtend_self_eq (fun e he => mem_mapLookup hn (by rw [Prod.mk.eta] at *; exact he))

/-! ## Path-order lemmas -/

theorem nibblesLe_refl (a : Nib) : nibblesLe a a = true := by
  induction a with
  | nil => rfl
  | cons x xs ih => simp [nibblesLe, ih]

theorem nibblesLe_total (a b : Nib) : nibblesLe a b = true ∨ nibblesLe b a = true := by
  induction a generalizing b with
  | nil => left; rfl
  | cons x xs ih =>
    cases b with
    | nil => right; rfl
    | cons y ys =>
      rcases lt_trichotomy x y with h | h | h
      · left; simp [nibblesLe, h]
      · subst h
        rcases ih ys with h' | h'
        · left; simp [nibblesLe, h']
        · right; simp [nibblesLe, h']
      · right; simp [nibblesLe, h]

theorem nibblesLe_trans {a b c : Nib} (h1 : nibblesLe a b = true)
    (h2 : nibblesLe b c = true) : nibblesLe a c = true := by
  induction a generalizing b c with
  | nil => rfl
  | cons x xs ih =>
    cases b with
    | nil => simp [nibblesLe] at h1
    | cons y ys =>
      cases c with
      | nil => simp [nibblesLe] at h2
      | cons z zs =>
        simp only [nibblesLe] at h1 h2 ⊢
        rcases lt_trichotomy x y with hxy | hxy | hxy
        · rcases lt_trichotomy y z with hyz | hyz | hyz
          · simp [Nat.lt_trans hxy hyz]
          · subst hyz
            simp [hxy]
          · rw [if_neg (by omega), if_pos hyz] at h2
            simp at h2
        · subst hxy
          simp only [lt_irrefl, ite_false, if_neg] at h1
          rcases lt_trichotomy x z with hxz | hxz | hxz
          · simp [hxz]
          · subst hxz
            simp only [lt_irrefl, ite_false, if_neg] at h2 ⊢
            exact ih h1 h2
          · rw [if_neg (by omega), if_pos hxz] at h2
            simp at h2
        · rw [if_neg (by omega), if_pos hxy] at h1
          simp at h1

theorem nibblesLe_antisymm {a b : Nib} (h1 : nibblesLe a b = true)
    (h2 : nibblesLe b a = true) : a = b := by
  induction a generalizing b with
  | nil =>
    cases b with
    | nil => rfl
    | cons y ys => simp [nibblesLe] at h2
  | cons x xs ih =>
    cases b with
    | nil => simp [nibblesLe] at h1
    | cons y ys =>
      simp only [nibblesLe] at h1 h2
      rcases lt_trichotomy x y with hxy | hxy | hxy
      · rw [if_neg (by omega), if_pos hxy] at h2
        simp at h2
      · subst hxy
        simp only [lt_irrefl, ite_false, if_neg] at h1 h2
        rw [ih h1 h2]
      · rw [if_neg (by omega), if_pos hxy] at h1
        simp at h1

theorem prefix_implies_nibblesLe {a b : Nib} (h : a <+: b) : nibblesLe a b = true := by
  induction a generalizing b with
  | nil => rfl
  | cons x xs ih =>
    cases b with
    | nil => simp at h
    | cons y ys =>
      rcases List.cons_prefix_cons.mp h with ⟨hxy, hp⟩
      subst hxy
      simp [nibblesLe, ih hp]

theorem prefix_nibblesLe_iff {a b t : Nib} (ha : a <+: t) (hb : b <+: t) :
    nibblesLe a b = true ↔ a.length ≤ b.length := by
  constructor
  · intro h
    rcases List.prefix_or_prefix_of_prefix ha hb with hp | hp
    · exact hp.length_le
    · rw [nibblesLe_antisymm h (prefix_implies_nibblesLe hp)]
  · intro h
    rcases List.prefix_or_prefix_of_prefix ha hb with hp | hp
    · exact prefix_implies_nibblesLe hp
    · rw [hp.eq_of_length (Nat.le_antisymm hp.length_le h)]
      exact nibblesLe_refl a

/-! ## Sorting lemmas -/

theorem insertSorted_perm {ν : Type} (e : Nib × ν) (l : List (Nib × ν)) :
    (insertSorted e l).Perm (e :: l) := by
  induction l with
  | nil => exact List.Perm.refl _
  | cons f rest ih =>
    by_cases h : nibblesLe e.1 f.1
    · simp [insertSorted, h]
    · simp only [insertSorted, h, ite_false, if_neg]
      exact (ih.cons f).trans (List.Perm.swap e f rest)

theorem sortByPath_perm {ν : Type} (l : List (Nib × ν)) : (sortByPath l).Perm l := by
  induction l with
  | nil => exact List.Perm.refl _
  | cons e rest ih =>
    exact (insertSorted_perm e (sortByPath rest)).trans (ih.cons e)

theorem insertSorted_pairwise {ν : Type} (e : Nib × ν) {l : List (Nib × ν)}
    (hl : l.Pairwise (fun x y => nibblesLe x.1 y.1 = true)) :
    (insertSorted e l).Pairwise (fun x y => nibblesLe x.1 y.1 = true) := by
  induction l with
  | nil => simp [insertSorted]
  | cons f rest ih =>
    rcases List.pairwise_cons.mp hl with ⟨hf, hrest⟩
    by_cases h : nibblesLe e.1 f.1
    · simp only [insertSorted, h, if_pos, ite_true]
      refine List.pairwise_cons.mpr ⟨?_, hl⟩
      intro g hg
      rcases List.mem_cons.mp hg with hg | hg
      · rw [hg]; exact h
      · exact nibblesLe_trans h (hf g hg)
    · simp only [insertSorted, h, if_neg, ite_false]
      refine List.pairwise_cons.mpr ⟨?_, ih hrest⟩
      intro g hg
      have hg' : g ∈ e :: rest := (insertSorted_perm e rest).mem_iff.mp hg
      rcases List.mem_cons.mp hg' with hg' | hg'
      · rw [hg']
        rcases nibblesLe_total e.1 f.1 with ht | ht
        · exact absurd ht h
        · exact ht
      · exact hf g hg'

theorem sortByPath_pairwise {ν : Type} (l : List (Nib × ν)) :
    (sortByPath l).Pairwise (fun x y => nibblesLe x.1 y.1 = true) := by
  induction l with
  | nil => simp [sortByPath]
  | cons e rest ih => exact insertSorted_pairwise e ih

theorem matchingNodes_mem {ν : Type} {m : List (Nib × ν)} {t : Nib} {e : Nib × ν}
    (h : e ∈ matchingNodes m t) : e ∈ m ∧ e.1 <+: t := by
  rcases List.mem_filter.mp h with ⟨hm, hp⟩
  exact ⟨hm, List.isPrefixOf_iff_prefix.mp hp⟩

theorem matchingNodesSorted_length_pairwise {ν : Type} (m : List (Nib × ν)) (t : Nib) :
    (matchingNodesSorted m t).Pairwise (fun x y => x.1.length ≤ y.1.length) := by
  have hp := sortByPath_pairwise (matchingNodes m t)
  refine List.Pairwise.imp_of_mem ?_ hp
  intro a b ha hb hle
  have ha' := (matchingNodes_mem ((sortByPath_perm _).mem_iff.mp ha)).2
  have hb' := (matchingNodes_mem ((sortByPath_perm _).mem_iff.mp hb)).2
  exact (prefix_nibblesLe_iff ha' hb').mp hle

/-! ## Unfolding lemmas for the extraction algorithms -/

theorem storage_proof_eq (s : StorageMultiProof) (E : Ext) (slot : B256) :
    s.storage_proof E slot =
      (storageValueFromProof E (Nibbles.unpack (E.keccakSlot slot))
        ((matchingNodesSorted s.subtree (Nibbles.unpack (E.keccakSlot slot))).map Prod.snd)).map
        (fun value =>
          { key := slot, nibbles := Nibbles.unpack (E.keccakSlot slot), value := value,
            proof := (matchingNodesSorted s.subtree
              (Nibbles.unpack (E.keccakSlot slot))).map Prod.snd }) := rfl

theorem decoded_storage_proof_eq (d : DecodedStorageMultiProof) (E : Ext) (slot : B256) :
    d.storage_proof E slot =
      (decodedStorageValueFromProof E (Nibbles.unpack (E.keccakSlot slot))
        ((matchingNodesSorted d.subtree (Nibbles.unpack (E.keccakSlot slot))).map Prod.snd)).map
        (fun value =>
          { key := slot, nibbles := Nibbles.unpack (E.keccakSlot slot), value := value,
            proof := (matchingNodesSorted d.subtree
              (Nibbles.unpack (E.keccakSlot slot))).map Prod.snd }) := rfl

theorem account_proof_eq (m : MultiProof) (E : Ext) (address : Address) (slots : List B256) :
    m.account_proof E address slots =
      match accountInfoFromProof E (Nibbles.unpack (E.keccakAddr address))
        ((matchingNodesSorted m.account_subtree
          (Nibbles.unpack (E.keccakAddr address))).map Prod.snd) with
      | Except.error e => Except.error e
      | Except.ok info =>
        (collectSlots E (mapLookup m.storages (E.keccakAddr address)) slots).map
          (fun storage_proofs =>
            { address := address, info := info,
              proof := (matchingNodesSorted m.account_subtree
                (Nibbles.unpack (E.keccakAddr address))).map Prod.snd,
              storage_root := ((mapLookup m.storages (E.keccakAddr address)).map
                StorageMultiProof.root).getD EMPTY_ROOT_HASH,
              storage_proofs := storage_proofs }) := rfl

theorem collectSlots_none (E : Ext) (slots : List B256) :
    collectSlots E none slots =
      Except.ok (slots.map (fun s =>
        { key := s, nibbles := Nibbles.unpack (E.keccakSlot s), value := 0, proof := [] })) := by
  induction slots with
  | nil => rfl
  | cons s rest ih => simp [collectSlots, ih, StorageProof.new]

/-! ## Verification-path lemmas -/

theorem verifyStorageAll_ok (E : Ext) (root : B256) (l : List StorageProof)
    (h : ∀ sp ∈ l, sp.verify E root = Except.ok ()) :
    verifyStorageAll E root l = Except.ok () := by
  induction l with
  | nil => rfl
  | cons sp rest ih =>
    have hsp := h sp (List.mem_cons_self sp rest)
    simp only [verifyStorageAll, hsp]
    exact ih (fun sp' h' => h sp' (List.mem_cons_of_mem _ h'))

theorem verifyStorageAll_error (E : Ext) (root : B256) (l : List StorageProof) (i : Nat)
    (sp : StorageProof) (e : VerifyError) (hi : l[i]? = some sp)
    (herr : sp.verify E root = Except.error e)
    (hj : ∀ j spj, j < i → l[j]? = some spj → spj.verify E root = Except.ok ()) :
    verifyStorageAll E root l = Except.error e := by
  induction l generalizing i with
  | nil => simp at hi
  | cons hd rest ih =>
    cases i with
    | zero =>
      simp only [List.getElem?_cons_zero, Option.some.injEq] at hi
      subst hi
      simp [verifyStorageAll, herr]
    | succ i' =>
      have h0 : hd.verify E root = Except.ok () :=
        hj 0 hd (Nat.succ_pos i') (by simp)
      simp only [verifyStorageAll, h0]
      refine ih i' (by simpa using hi) ?_
      intro j spj hji hjg
      exact hj (j + 1) spj (Nat.succ_lt_succ hji) (by simpa using hjg)

/-- C4: for every `StorageProof` and root, `verify(root)` passes an absent
expected value to the external node-chain verifier exactly when the stored
value is zero, and otherwise the canonical fixed-size encoding of the value,
together with the stored nibble path and proof node sequence. -/
theorem storageProof_verify_expected (E : Ext) (sp : StorageProof) (root : B256) :
    ∃ expected : Option Bytes,
      sp.verify E root = E.verifyProof root sp.nibbles expected sp.proof ∧
      (expected = none ↔ sp.value = 0) ∧
      (expected = none ∨ expected = some (E.encodeFixedU256 sp.value)) := by
  refine ⟨if sp.value = 0 then none else some (E.encodeFixedU256 sp.value), rfl, ?_, ?_⟩
  · by_cases h : sp.value = 0 <;> simp [h]
  · by_cases h : sp.value = 0 <;> simp [h]

/-- C3: `AccountProof::verify(root)` verifies each contained storage proof
against `self.storage_root` first, propagating the first storage failure;
when all storage proofs pass, the expected encoded value handed to the
external verifier is absent exactly when `info` is absent and `storage_root`
is the empty-trie root, and otherwise is the canonical encoding of
`(info.unwrap_or_default(), storage_root)` at the hashed-address path. -/
theorem accountProof_verify_spec (E : Ext) (ap : AccountProof) (root : B256) :
    (∀ (i : Nat) (sp : StorageProof) (e : VerifyError), ap.storage_proofs[i]? = some sp →
      sp.verify E ap.storage_root = Except.error e →
      (∀ (j : Nat) (spj : StorageProof), j < i → ap.storage_proofs[j]? = some spj →
        spj.verify E ap.storage_root = Except.ok ()) →
      ap.verify E root = Except.error e)
    ∧ ((∀ sp ∈ ap.storage_proofs, sp.verify E ap.storage_root = Except.ok ()) →
      ∃ expected : Option Bytes,
        ap.verify E root =
          E.verifyProof root (Nibbles.unpack (E.keccakAddr ap.address)) expected ap.proof ∧
        (expected = none ↔ ap.info = none ∧ ap.storage_root = EMPTY_ROOT_HASH) ∧
        (expected = none ∨
          expected = some (E.encodeTrieAccount
            ((ap.info.getD Account.default).into_trie_account ap.storage_root)))) := by
  constructor
  · intro i sp e hi herr hj
    have h := verifyStorageAll_error E ap.storage_root ap.storage_proofs i sp e hi herr hj
    simp [AccountProof.verify, h]
  · intro hall
    have hok := verifyStorageAll_ok E ap.storage_root ap.storage_proofs hall
    refine ⟨if ap.info.isNone && (ap.storage_root == EMPTY_ROOT_HASH) then none
      else some (E.encodeTrieAccount
        ((ap.info.getD Account.default).into_trie_account ap.storage_root)), ?_, ?_, ?_⟩
    · simp only [AccountProof.verify, hok]
    · by_cases h1 : ap.info = none <;> by_cases h2 : ap.storage_root = EMPTY_ROOT_HASH <;>
        simp [h1, h2]
    · by_cases h1 : ap.info = none <;> by_cases h2 : ap.storage_root = EMPTY_ROOT_HASH <;>
        simp [h1, h2]

/-- C5: storage handling of `MultiProof::account_proof`: the storage root is
taken from `storages[hashed_address].root` when that entry exists and is the
empty-trie root constant otherwise; when no storage multiproof exists, every
requested slot yields the synthesized proof with zero value, no proof nodes
and the hashed-slot nibbles populated, and absence never turns a successful
extraction into an error. -/
theorem accountProof_storage_absent (E : Ext) (mp : MultiProof) (address : Address)
    (slots : List B256) :
    (mapLookup mp.storages (E.keccakAddr address) = none →
      (∀ ap : AccountProof, mp.account_proof E address slots = Except.ok ap →
        ap.storage_root = EMPTY_ROOT_HASH ∧
        ap.storage_proofs = slots.map (fun s =>
          { key := s, nibbles := Nibbles.unpack (E.keccakSlot s), value := 0, proof := [] })) ∧
      (∀ ap0 : AccountProof, mp.account_proof E address [] = Except.ok ap0 →
        ∃ ap : AccountProof, mp.account_proof E address slots = Except.ok ap)) ∧
    (∀ sm : StorageMultiProof, mapLookup mp.storages (E.keccakAddr address) = some sm →
      ∀ ap : AccountProof, mp.account_proof E address slots = Except.ok ap →
        ap.storage_root = sm.root) := by
  constructor
  · intro hnone
    constructor
    · intro ap hap
      rw [account_proof_eq] at hap
      rcases hInfo : accountInfoFromProof E (Nibbles.unpack (E.keccakAddr address))
        ((matchingNodesSorted mp.account_subtree
          (Nibbles.unpack (E.keccakAddr address))).map Prod.snd) with e | info
      · rw [hInfo] at hap
        simp at hap
      · rw [hInfo, hnone, collectSlots_none] at hap
        simp only [Except.map, Except.ok.injEq] at hap
        rw [← hap]
        exact ⟨rfl, rfl⟩
    · intro ap0 hap0
      rw [account_proof_eq] at hap0
      rw [account_proof_eq]
      rcases hInfo : accountInfoFromProof E (Nibbles.unpack (E.keccakAddr address))
        ((matchingNodesSorted mp.account_subtree
          (Nibbles.unpack (E.keccakAddr address))).map Prod.snd) with e | info
      · rw [hInfo] at hap0
        simp at hap0
      · simp only [hInfo, hnone, collectSlots_none]
        exact ⟨_, rfl⟩
  · intro sm hsm ap hap
    rw [account_proof_eq] at hap
    rcases hInfo : accountInfoFromProof E (Nibbles.unpack (E.keccakAddr address))
      ((matchingNodesSorted mp.account_subtree
        (Nibbles.unpack (E.keccakAddr address))).map Prod.snd) with e | info
    · rw [hInfo] at hap
      simp at hap
    · rw [hInfo, hsm] at hap
      rcases hc : collectSlots E (some sm) slots with e | sps
      · rw [hc] at hap
        simp [Except.map] at hap
      · rw [hc] at hap
        simp only [Except.map, Except.ok.injEq] at hap
        rw [← hap]
        rfl

/-- C1: `MultiProof::account_proof` inspects the last node of the collected
proof sequence: when it decodes as a leaf whose stored key suffix completes
the full hashed-address path, its value decodes as the canonical state
account and populates `info`, a code hash equal to the empty-bytecode hash
normalized to an absent bytecode hash; in every other decoded outcome (no
nodes, or last node not a matching leaf) `info` is absent and the extraction
returns a valid result rather than an error. -/
theorem accountProof_info_spec (E : Ext) (mp : MultiProof) (address : Address) :
    (∀ (slots : List B256) (lastB : Bytes) (k : Nib) (v : Bytes) (ta : TrieAccount)
      (ap : AccountProof),
      ((matchingNodesSorted mp.account_subtree
        (Nibbles.unpack (E.keccakAddr address))).map Prod.snd).getLast? = some lastB →
      E.decodeNode lastB = Except.ok (TrieNode.leaf k v) →
      k.isSuffixOf (Nibbles.unpack (E.keccakAddr address)) = true →
      E.decodeAccount v = Except.ok ta →
      mp.account_proof E address slots = Except.ok ap →
      ap.info = some
        { nonce := ta.nonce, balance := ta.balance,
          bytecode_hash :=
            if ta.code_hash = KECCAK_EMPTY then none else some ta.code_hash })
    ∧ ((((matchingNodesSorted mp.account_subtree
          (Nibbles.unpack (E.keccakAddr address))).map Prod.snd).getLast? = none ∨
        (∃ (lastB : Bytes) (node : TrieNode),
          ((matchingNodesSorted mp.account_subtree
            (Nibbles.unpack (E.keccakAddr address))).map Prod.snd).getLast? = some lastB ∧
          E.decodeNode lastB = Except.ok node ∧
          ∀ (k : Nib) (v : Bytes), node = TrieNode.leaf k v →
            k.isSuffixOf (Nibbles.unpack (E.keccakAddr address)) = false)) →
      ∃ ap : AccountProof, mp.account_proof E address [] = Except.ok ap ∧ ap.info = none) := by
  constructor
  · intro slots lastB k v ta ap hlast hdec hsuf hacc hap
    have hinfo : accountInfoFromProof E (Nibbles.unpack (E.keccakAddr address))
        ((matchingNodesSorted mp.account_subtree
          (Nibbles.unpack (E.keccakAddr address))).map Prod.snd) =
        Except.ok (some
          { balance := ta.balance, nonce := ta.nonce,
            bytecode_hash :=
              if ta.code_hash ≠ KECCAK_EMPTY then some ta.code_hash else none }) := by
      simp only [accountInfoFromProof, hlast, hdec, hsuf, if_true, hacc]
    rw [account_proof_eq] at hap
    rw [hinfo] at hap
    rcases hc : collectSlots E (mapLookup mp.storages (E.keccakAddr address)) slots
      with e | sps
    · rw [hc] at hap
      simp [Except.map] at hap
    · rw [hc] at hap
      simp only [Except.map, Except.ok.injEq] at hap
      rw [← hap]
      by_cases hch : ta.code_hash = KECCAK_EMPTY <;> simp [hch]
  · intro houtcome
    have hinfo : accountInfoFromProof E (Nibbles.unpack (E.keccakAddr address))
        ((matchingNodesSorted mp.account_subtree
          (Nibbles.unpack (E.keccakAddr address))).map Prod.snd) = Except.ok none := by
      rcases houtcome with hnone | ⟨lastB, node, hlast, hdec, hnotleaf⟩
      · simp only [accountInfoFromProof, hnone]
      · simp only [accountInfoFromProof, hlast, hdec]
        cases node with
        | emptyRoot => rfl
        | branch mask => rfl
        | extensionNode nk => rfl
        | leaf k v =>
          have hk := hnotleaf k v rfl
          simp [hk]
    rw [account_proof_eq]
    simp only [hinfo]
    exact ⟨_, rfl, rfl⟩

/-- C2: `StorageMultiProof::storage_proof(slot)` hashes the slot, unpacks it
to nibbles and collects the matching subtree entries sorted by path value —
which, all matched paths being prefixes of one target, is also ascending
path-length order; the last node resolves the value (decoded unsigned
256-bit integer for a completing leaf, zero otherwise) and the result always
carries the key, nibbles, resolved value and proof sequence. -/
theorem storageProof_extraction_spec (E : Ext) (s : StorageMultiProof) (slot : B256) :
    (∀ sp : StorageProof, s.storage_proof E slot = Except.ok sp →
      sp.key = slot ∧ sp.nibbles = Nibbles.unpack (E.keccakSlot slot) ∧
      sp.proof = (matchingNodesSorted s.subtree
        (Nibbles.unpack (E.keccakSlot slot))).map Prod.snd)
    ∧ ((matchingNodesSorted s.subtree (Nibbles.unpack (E.keccakSlot slot))).Perm
        (matchingNodes s.subtree (Nibbles.unpack (E.keccakSlot slot))) ∧
      (matchingNodesSorted s.subtree (Nibbles.unpack (E.keccakSlot slot))).Pairwise
        (fun x y => nibblesLe x.1 y.1 = true) ∧
      (matchingNodesSorted s.subtree (Nibbles.unpack (E.keccakSlot slot))).Pairwise
        (fun x y => x.1.length ≤ y.1.length))
    ∧ (∀ (lastB : Bytes) (k : Nib) (v : Bytes) (val : U256) (sp : StorageProof),
      ((matchingNodesSorted s.subtree
        (Nibbles.unpack (E.keccakSlot slot))).map Prod.snd).getLast? = some lastB →
      E.decodeNode lastB = Except.ok (TrieNode.leaf k v) →
      k.isSuffixOf (Nibbles.unpack (E.keccakSlot slot)) = true →
      E.decodeU256 v = Except.ok val →
      s.storage_proof E slot = Except.ok sp → sp.value = val)
    ∧ ((((matchingNodesSorted s.subtree
          (Nibbles.unpack (E.keccakSlot slot))).map Prod.snd).getLast? = none ∨
        (∃ (lastB : Bytes) (node : TrieNode),
          ((matchingNodesSorted s.subtree
            (Nibbles.unpack (E.keccakSlot slot))).map Prod.snd).getLast? = some lastB ∧
          E.decodeNode lastB = Except.ok node ∧
          ∀ (k : Nib) (v : Bytes), node = TrieNode.leaf k v →
            k.isSuffixOf (Nibbles.unpack (E.keccakSlot slot)) = false)) →
      s.storage_proof E slot = Except.ok
        { key := slot, nibbles := Nibbles.unpack (E.keccakSlot slot), value := 0,
          proof := (matchingNodesSorted s.subtree
            (Nibbles.unpack (E.keccakSlot slot))).map Prod.snd }) := by
  refine ⟨?_, ⟨sortByPath_perm _, sortByPath_pairwise _,
    matchingNodesSorted_length_pairwise _ _⟩, ?_, ?_⟩
  · intro sp hsp
    rw [storage_proof_eq] at hsp
    rcases hv : storageValueFromProof E (Nibbles.unpack (E.keccakSlot slot))
      ((matchingNodesSorted s.subtree
        (Nibbles.unpack (E.keccakSlot slot))).map Prod.snd) with e | val
    · rw [hv] at hsp
      simp [Except.map] at hsp
    · rw [hv] at hsp
      simp only [Except.map, Except.ok.injEq] at hsp
      rw [← hsp]
      exact ⟨rfl, rfl, rfl⟩
  · intro lastB k v val sp hlast hdec hsuf hdecU hsp
    have hv : storageValueFromProof E (Nibbles.unpack (E.keccakSlot slot))
        ((matchingNodesSorted s.subtree
          (Nibbles.unpack (E.keccakSlot slot))).map Prod.snd) = Except.ok val := by
      simp only [storageValueFromProof, hlast, hdec, hsuf, if_true, hdecU]
    rw [storage_proof_eq] at hsp
    rw [hv] at hsp
    simp only [Except.map, Except.ok.injEq] at hsp
    rw [← hsp]
  · intro houtcome
    have hv : storageValueFromProof E (Nibbles.unpack (E.keccakSlot slot))
        ((matchingNodesSorted s.subtree
          (Nibbles.unpack (E.keccakSlot slot))).map Prod.snd) = Except.ok 0 := by
      rcases houtcome with hnone | ⟨lastB, node, hlast, hdec, hnotleaf⟩
      · simp only [storageValueFromProof, hnone]
      · simp only [storageValueFromProof, hlast, hdec]
        cases node with
        | emptyRoot => rfl
        | branch mask => rfl
        | extensionNode nk => rfl
        | leaf k v =>
          have hk := hnotleaf k v rfl
          simp [hk]
    rw [storage_proof_eq, hv]
    rfl

/-- C10: extraction decodes only the last node of the matched proof chain: a
decode error from `storage_proof`, or from `account_proof` with no requested
slots, can only originate from decoding the final node of the collected
sequence or its leaf value; the bytes of every earlier node — arbitrary or
undecodable — are never decoded. -/
theorem extraction_decodes_only_last (E : Ext) :
    (∀ (s : StorageMultiProof) (slot : B256) (e : RlpError),
      s.storage_proof E slot = Except.error e →
      ∃ lastB : Bytes,
        ((matchingNodesSorted s.subtree
          (Nibbles.unpack (E.keccakSlot slot))).map Prod.snd).getLast? = some lastB ∧
        (E.decodeNode lastB = Except.error e ∨
          ∃ (k : Nib) (v : Bytes), E.decodeNode lastB = Except.ok (TrieNode.leaf k v) ∧
            k.isSuffixOf (Nibbles.unpack (E.keccakSlot slot)) = true ∧
            E.decodeU256 v = Except.error e))
    ∧ (∀ (mp : MultiProof) (address : Address) (e : RlpError),
      mp.account_proof E address [] = Except.error e →
      ∃ lastB : Bytes,
        ((matchingNodesSorted mp.account_subtree
          (Nibbles.unpack (E.keccakAddr address))).map Prod.snd).getLast? = some lastB ∧
        (E.decodeNode lastB = Except.error e ∨
          ∃ (k : Nib) (v : Bytes), E.decodeNode lastB = Except.ok (TrieNode.leaf k v) ∧
            k.isSuffixOf (Nibbles.unpack (E.keccakAddr address)) = true ∧
            E.decodeAccount v = Except.error e)) := by
  constructor
  · intro s slot e herr
    rw [storage_proof_eq] at herr
    rcases hv : storageValueFromProof E (Nibbles.unpack (E.keccakSlot slot))
      ((matchingNodesSorted s.subtree
        (Nibbles.unpack (E.keccakSlot slot))).map Prod.snd) with e' | val
    · rw [hv] at herr
      simp only [Except.map, Except.error.injEq] at herr
      subst herr
      rcases hl : ((matchingNodesSorted s.subtree
        (Nibbles.unpack (E.keccakSlot slot))).map Prod.snd).getLast? with _ | lastB
      · simp only [storageValueFromProof, hl] at hv
        exact absurd hv (by simp)
      · refine ⟨lastB, rfl, ?_⟩
        rcases hd : E.decodeNode lastB with e'' | node
        · simp only [storageValueFromProof, hl, hd, Except.error.injEq] at hv
          exact Or.inl (by rw [hv])
        · cases node with
          | emptyRoot => simp [storageValueFromProof, hl, hd] at hv
          | branch mask => simp [storageValueFromProof, hl, hd] at hv
          | extensionNode nk => simp [storageValueFromProof, hl, hd] at hv
          | leaf k v =>
            rcases hs : k.isSuffixOf (Nibbles.unpack (E.keccakSlot slot)) with _ | _
            · simp [storageValueFromProof, hl, hd, hs] at hv
            · simp only [storageValueFromProof, hl, hd, hs, if_true] at hv
              exact Or.inr ⟨k, v, rfl, hs, hv⟩
    · rw [hv] at herr
      simp [Except.map] at herr
  · intro mp address e herr
    rw [account_proof_eq] at herr
    rcases hv : accountInfoFromProof E (Nibbles.unpack (E.keccakAddr address))
      ((matchingNodesSorted mp.account_subtree
        (Nibbles.unpack (E.keccakAddr address))).map Prod.snd) with e' | info
    · rw [hv] at herr
      simp only [Except.error.injEq] at herr
      subst herr
      rcases hl : ((matchingNodesSorted mp.account_subtree
        (Nibbles.unpack (E.keccakAddr address))).map Prod.snd).getLast? with _ | lastB
      · simp only [accountInfoFromProof, hl] at hv
        exact absurd hv (by simp)
      · refine ⟨lastB, rfl, ?_⟩
        rcases hd : E.decodeNode lastB with e'' | node
        · simp only [accountInfoFromProof, hl, hd, Except.error.injEq] at hv
          exact Or.inl (by rw [hv])
        · cases node with
          | emptyRoot => simp [accountInfoFromProof, hl, hd] at hv
          | branch mask => simp [accountInfoFromProof, hl, hd] at hv
          | extensionNode nk => simp [accountInfoFromProof, hl, hd] at hv
          | leaf k v =>
            rcases hs : k.isSuffixOf (Nibbles.unpack (E.keccakAddr address)) with _ | _
            · simp [accountInfoFromProof, hl, hd, hs] at hv
            · simp only [accountInfoFromProof, hl, hd, hs, if_true] at hv
              rcases ha : E.decodeAccount v with e''' | ta
              · rw [ha] at hv
                simp only [Except.error.injEq] at hv
                exact Or.inr ⟨k, v, rfl, hs, by rw [ha, hv]⟩
              · rw [ha] at hv
                simp at hv
    · rw [hv] at herr
      simp [Except.map, collectSlots] at herr

/-! ## Alignment lemmas between the raw and the decoded containers -/

theorem forall2_matchingNodes {β γ : Type} {R : (Nib × β) → (Nib × γ) → Prop}
    (hkey : ∀ a b, R a b → a.1 = b.1) {l₁ : List (Nib × β)} {l₂ : List (Nib × γ)}
    (h : List.Forall₂ R l₁ l₂) (t : Nib) :
    List.Forall₂ R (matchingNodes l₁ t) (matchingNodes l₂ t) := by
  induction h with
  | nil => exact List.Forall₂.nil
  | cons hab htail ih =>
    rename_i a b l₁' l₂'
    have hk := hkey a b hab
    by_cases hp : a.1.isPrefixOf t = true
    · have hp' : b.1.isPrefixOf t = true := hk ▸ hp
      simpa [matchingNodes, hp, hp'] using List.Forall₂.cons hab ih
    · have hp' : ¬ b.1.isPrefixOf t = true := hk ▸ hp
      simpa [matchingNodes, hp, hp'] using ih

theorem forall2_insertSorted {β γ : Type} {R : (Nib × β) → (Nib × γ) → Prop}
    (hkey : ∀ a b, R a b → a.1 = b.1) {a : Nib × β} {b : Nib × γ}
    {l₁ : List (Nib × β)} {l₂ : List (Nib × γ)} (hab : R a b)
    (h : List.Forall₂ R l₁ l₂) :
    List.Forall₂ R (insertSorted a l₁) (insertSorted b l₂) := by
  induction h with
  | nil => exact List.Forall₂.cons hab List.Forall₂.nil
  | cons hfg htail ih =>
    rename_i f g l₁' l₂'
    have hk := hkey a b hab
    have hk' := hkey f g hfg
    by_cases hle : nibblesLe a.1 f.1 = true
    · have hle' : nibblesLe b.1 g.1 = true := hk ▸ hk' ▸ hle
      simpa [insertSorted, hle, hle'] using
        List.Forall₂.cons hab (List.Forall₂.cons hfg htail)
    · have hle' : ¬ nibblesLe b.1 g.1 = true := hk ▸ hk' ▸ hle
      simpa [insertSorted, hle, hle'] using List.Forall₂.cons hfg ih

theorem forall2_sortByPath {β γ : Type} {R : (Nib × β) → (Nib × γ) → Prop}
    (hkey : ∀ a b, R a b → a.1 = b.1) {l₁ : List (Nib × β)} {l₂ : List (Nib × γ)}
    (h : List.Forall₂ R l₁ l₂) :
    List.Forall₂ R (sortByPath l₁) (sortByPath l₂) := by
  induction h with
  | nil => exact List.Forall₂.nil
  | cons hab htail ih =>
    exact forall2_insertSorted hkey hab ih

theorem forall2_map_snd {β γ : Type} {S : β → γ → Prop} {R : (Nib × β) → (Nib × γ) → Prop}
    (hS : ∀ a b, R a b → S a.2 b.2) {l₁ : List (Nib × β)} {l₂ : List (Nib × γ)}
    (h : List.Forall₂ R l₁ l₂) :
    List.Forall₂ S (l₁.map Prod.snd) (l₂.map Prod.snd) := by
  induction h with
  | nil => exact List.Forall₂.nil
  | cons hab htail ih => exact List.Forall₂.cons (hS _ _ hab) ih

theorem forall2_getLast {α β : Type} {S : α → β → Prop} {l₁ : List α} {l₂ : List β}
    (h : List.Forall₂ S l₁ l₂) :
    (l₁.getLast? = none ∧ l₂.getLast? = none) ∨
      ∃ a b, l₁.getLast? = some a ∧ l₂.getLast? = some b ∧ S a b := by
  induction h with
  | nil => exact Or.inl ⟨rfl, rfl⟩
  | cons hab htail ih =>
    rename_i a b l₁' l₂'
    rcases ih with ⟨h1, h2⟩ | ⟨a', b', h1, h2, hr⟩
    · have e1 : l₁' = [] := by
        cases l₁' with
        | nil => rfl
        | cons x xs => simp [List.getLast?] at h1
      have e2 : l₂' = [] := by
        cases l₂' with
        | nil => rfl
        | cons x xs => simp [List.getLast?] at h2
      subst e1
      subst e2
      exact Or.inr ⟨a, b, rfl, rfl, hab⟩
    · have e1 : (a :: l₁').getLast? = some a' := by
        cases l₁' with
        | nil => simp at h1
        | cons x xs => rw [List.getLast?_cons_cons]; exact h1
      have e2 : (b :: l₂').getLast? = some b' := by
        cases l₂' with
        | nil => simp at h2
        | cons x xs => rw [List.getLast?_cons_cons]; exact h2
      exact Or.inr ⟨a', b', e1, e2, hr⟩

/-- C8: for every slot, `DecodedStorageMultiProof::storage_proof` computes
the same key, nibbles and resolved value as `StorageMultiProof::storage_proof`
does on a subtree whose entries are byte-level encodings of the decoded
subtree's nodes at the same paths. -/
theorem decoded_storageProof_equiv (E : Ext) (s : StorageMultiProof)
    (d : DecodedStorageMultiProof) (slot : B256)
    (h : List.Forall₂ (fun eb ed => eb.1 = ed.1 ∧ E.decodeNode eb.2 = Except.ok ed.2)
      s.subtree d.subtree) :
    (s.storage_proof E slot).map (fun sp => (sp.key, sp.nibbles, sp.value)) =
      (d.storage_proof E slot).map (fun dp => (dp.key, dp.nibbles, dp.value)) := by
  have hkey : ∀ (a : Nib × Bytes) (b : Nib × TrieNode),
      (a.1 = b.1 ∧ E.decodeNode a.2 = Except.ok b.2) → a.1 = b.1 := fun _ _ hr => hr.1
  have hm := forall2_sortByPath hkey
    (forall2_matchingNodes hkey h (Nibbles.unpack (E.keccakSlot slot)))
  have hsnd := @forall2_map_snd Bytes TrieNode
    (fun x y => E.decodeNode x = Except.ok y)
    (fun a b => a.1 = b.1 ∧ E.decodeNode a.2 = Except.ok b.2)
    (fun a b hr => hr.2) _ _ hm
  have hveq : storageValueFromProof E (Nibbles.unpack (E.keccakSlot slot))
      ((matchingNodesSorted s.subtree (Nibbles.unpack (E.keccakSlot slot))).map Prod.snd) =
      decodedStorageValueFromProof E (Nibbles.unpack (E.keccakSlot slot))
        ((matchingNodesSorted d.subtree (Nibbles.unpack (E.keccakSlot slot))).map
          Prod.snd) := by
    rcases forall2_getLast hsnd with ⟨h1, h2⟩ | ⟨bb, nn, h1, h2, hdec⟩
    · simp only [storageValueFromProof, decodedStorageValueFromProof,
        matchingNodesSorted, h1, h2]
    · simp only [storageValueFromProof, decodedStorageValueFromProof,
        matchingNodesSorted, h1, h2, hdec]
      cases nn <;> rfl
  rw [storage_proof_eq, decoded_storage_proof_eq, hveq]
  rcases hv : decodedStorageValueFromProof E (Nibbles.unpack (E.keccakSlot slot))
    ((matchingNodesSorted d.subtree (Nibbles.unpack (E.keccakSlot slot))).map Prod.snd)
    with e | val
  · rfl
  · rfl

/-! ## Merge lemmas -/

theorem storagesFold_lookup (others : List (B256 × StorageMultiProof))
    (acc : List (B256 × StorageMultiProof)) (k : B256)
    (hn : (mapKeys others).Nodup) :
    mapLookup (others.foldl (fun acc es =>
      mapInsert acc es.1
        (match mapLookup acc es.1 with
         | some entry => extendStorageEntry entry es.2
         | none => es.2)) acc) k =
      match mapLookup others k with
      | some sb =>
        some (match mapLookup acc k with
          | some sa => extendStorageEntry sa sb
          | none => sb)
      | none => mapLookup acc k := by
  induction others generalizing acc with
  | nil => simp [mapLookup]
  | cons e rest ih =>
    simp only [mapKeys, List.map_cons, List.nodup_cons] at hn
    rw [List.foldl_cons, ih _ hn.2]
    by_cases hk : e.1 = k
    · subst hk
      have hre : mapLookup rest e.1 = none := (mapLookup_eq_none rest e.1).mpr hn.1
      simp [mapLookup, hre, mapLookup_insert]
    · rcases hr : mapLookup rest k with _ | sb <;>
        simp [mapLookup, hk, hr, mapLookup_insert, Ne.symm hk]

theorem extend_storages_lookup (a b : MultiProof) (k : B256)
    (hn : (mapKeys b.storages).Nodup) :
    mapLookup (a.extend b).storages k =
      match mapLookup b.storages k with
      | some sb => some (match mapLookup a.storages k with
          | some sa => extendStorageEntry sa sb
          | none => sb)
      | none => mapLookup a.storages k :=
  storagesFold_lookup b.storages a.storages k hn

theorem eq_of_sorted_of_perm {ν : Type} {l₁ l₂ : List (Nib × ν)} (hp : l₁.Perm l₂)
    (h₁ : l₁.Pairwise (fun x y => nibblesLe x.1 y.1 = true))
    (h₂ : l₂.Pairwise (fun x y => nibblesLe x.1 y.1 = true))
    (hnd : (mapKeys l₁).Nodup) : l₁ = l₂ := by
  induction l₁ generalizing l₂ with
  | nil => exact (List.Perm.nil_eq hp).symm ▸ rfl
  | cons a t₁ ih =>
    cases l₂ with
    | nil => exact absurd hp.symm (by simp)
    | cons b t₂ =>
      rcases List.pairwise_cons.mp h₁ with ⟨ha1, ht1⟩
      rcases List.pairwise_cons.mp h₂ with ⟨hb2, ht2⟩
      simp only [mapKeys, List.map_cons, List.nodup_cons] at hnd
      by_cases hab : a = b
      · subst hab
        have htp : t₁.Perm t₂ := (List.perm_cons a).mp hp
        rw [ih htp ht1 ht2 hnd.2]
      · have hbmem : b ∈ a :: t₁ := hp.mem_iff.mpr (List.mem_cons_self b t₂)
        have hamem : a ∈ b :: t₂ := hp.mem_iff.mp (List.mem_cons_self a t₁)
        have hbt1 : b ∈ t₁ := by
          rcases List.mem_cons.mp hbmem with h | h
          · exact absurd h.symm hab
          · exact h
        have hat2 : a ∈ t₂ := by
          rcases List.mem_cons.mp hamem with h | h
          · exact absurd h hab
          · exact h
        have hkey : a.1 = b.1 := nibblesLe_antisymm (ha1 b hbt1) (hb2 a hat2)
        exact absurd (hkey ▸ List.mem_map.mpr ⟨b, hbt1, rfl⟩) hnd.1

theorem sortByPath_eq_of_perm {ν : Type} {l₁ l₂ : List (Nib × ν)} (hp : l₁.Perm l₂)
    (hnd : (mapKeys l₁).Nodup) : sortByPath l₁ = sortByPath l₂ := by
  refine eq_of_sorted_of_perm ?_ (sortByPath_pairwise l₁) (sortByPath_pairwise l₂) ?_
  · exact (sortByPath_perm l₁).trans (hp.trans (sortByPath_perm l₂).symm)
  · have : (mapKeys (sortByPath l₁)).Perm (mapKeys l₁) :=
      (sortByPath_perm l₁).map Prod.fst
    exact this.nodup_iff.mpr hnd

theorem extendStorageEntry_self (s : StorageMultiProof) (h : smpWF s) :
    extendStorageEntry s s = s := by
  rcases h with ⟨h1, h2, h3⟩
  cases s
  simp only [extendStorageEntry] at *
  simp only [mapExtend_self h1, mapExtend_self h2, mapExtend_self h3]

theorem foldl_storages_self (a : List (B256 × StorageMultiProof))
    (hn : (mapKeys a).Nodup) (hwf : ∀ e ∈ a, smpWF e.2) (o : List (B256 × StorageMultiProof))
    (ho : ∀ e ∈ o, e ∈ a) :
    o.foldl (fun acc es =>
      mapInsert acc es.1
        (match mapLookup acc es.1 with
         | some entry => extendStorageEntry entry es.2
         | none => es.2)) a = a := by
  induction o with
  | nil => rfl
  | cons e rest ih =>
    have hea : e ∈ a := ho e (List.mem_cons_self e rest)
    have hlk : mapLookup a e.1 = some e.2 :=
      mem_mapLookup hn (by rw [Prod.mk.eta] at *; exact hea)
    have hstep : mapInsert a e.1
        (match mapLookup a e.1 with
         | some entry => extendStorageEntry entry e.2
         | none => e.2) = a := by
      simp only [hlk]
      rw [extendStorageEntry_self e.2 (hwf e hea)]
      exact mapInsert_lookup_self hlk
    rw [List.foldl_cons, hstep]
    exact ih (fun e' he' => ho e' (List.mem_cons_of_mem _ he'))

theorem multiProof_extend_self (a : MultiProof) (hw : mpWF a) : a.extend a = a := by
  rcases hw with ⟨h1, h2, h3, h4, h5⟩
  cases a with
  | mk subtree hm tm stor =>
    simp only [MultiProof.extend, MultiProof.mk.injEq]
    exact ⟨mapExtend_self h1, mapExtend_self h2, mapExtend_self h3,
      foldl_storages_self stor h4 h5 stor (fun e he => he)⟩

theorem mapLookup_mem_keys {κ ν : Type} [DecidableEq κ] {m : List (κ × ν)} {k : κ} {v : ν}
    (h : mapLookup m k = some v) : k ∈ mapKeys m := by
  by_contra hk
  rw [(mapLookup_eq_none m k).mpr hk] at h
  simp at h

theorem extend_account_subtree (a b : MultiProof) :
    (a.extend b).account_subtree = mapExtend a.account_subtree b.account_subtree := rfl

theorem extend_hash_masks (a b : MultiProof) :
    (a.extend b).branch_node_hash_masks =
      mapExtend a.branch_node_hash_masks b.branch_node_hash_masks := rfl

theorem extend_tree_masks (a b : MultiProof) :
    (a.extend b).branch_node_tree_masks =
      mapExtend a.branch_node_tree_masks b.branch_node_tree_masks := rfl

theorem extendStorageEntry_hash_masks (s o : StorageMultiProof) :
    (extendStorageEntry s o).branch_node_hash_masks =
      mapExtend s.branch_node_hash_masks o.branch_node_hash_masks := rfl

theorem extendStorageEntry_tree_masks (s o : StorageMultiProof) :
    (extendStorageEntry s o).branch_node_tree_masks =
      mapExtend s.branch_node_tree_masks o.branch_node_tree_masks := rfl

/-- C6: `MultiProof::extend` unions the account subtree and both mask maps,
and merges the storages map entrywise: under the precondition that the two
sides agree on the storage root of every account present in both, a merged
entry keeps that common root and its subtree and mask maps are the union of
both sides, while an account present on only one side keeps its entry
unchanged in the result. -/
theorem multiProof_extend_spec (a b : MultiProof) (hwa : mpWF a) (hwb : mpWF b)
    (hroot : ∀ (k : B256) (sa sb : StorageMultiProof),
      mapLookup a.storages k = some sa → mapLookup b.storages k = some sb →
      sa.root = sb.root) :
    (∀ p : Nib, mapLookup (a.extend b).account_subtree p =
      (mapLookup b.account_subtree p).orElse (fun _ => mapLookup a.account_subtree p))
    ∧ (∀ p : Nib, mapLookup (a.extend b).branch_node_hash_masks p =
      (mapLookup b.branch_node_hash_masks p).orElse
        (fun _ => mapLookup a.branch_node_hash_masks p))
    ∧ (∀ p : Nib, mapLookup (a.extend b).branch_node_tree_masks p =
      (mapLookup b.branch_node_tree_masks p).orElse
        (fun _ => mapLookup a.branch_node_tree_masks p))
    ∧ (∀ (k : B256) (sb : StorageMultiProof), mapLookup b.storages k = some sb →
      mapLookup a.storages k = none → mapLookup (a.extend b).storages k = some sb)
    ∧ (∀ (k : B256) (sa : StorageMultiProof), mapLookup a.storages k = some sa →
      mapLookup b.storages k = none → mapLookup (a.extend b).storages k = some sa)
    ∧ (∀ (k : B256) (sa sb : StorageMultiProof), mapLookup a.storages k = some sa →
      mapLookup b.storages k = some sb →
      ∃ sc : StorageMultiProof, mapLookup (a.extend b).storages k = some sc ∧
        sc.root = sa.root ∧ sc.root = sb.root ∧
        (∀ p : Nib, mapLookup sc.subtree p =
          (mapLookup sb.subtree p).orElse (fun _ => mapLookup sa.subtree p)) ∧
        (∀ p : Nib, mapLookup sc.branch_node_hash_masks p =
          (mapLookup sb.branch_node_hash_masks p).orElse
            (fun _ => mapLookup sa.branch_node_hash_masks p)) ∧
        (∀ p : Nib, mapLookup sc.branch_node_tree_masks p =
          (mapLookup sb.branch_node_tree_masks p).orElse
            (fun _ => mapLookup sa.branch_node_tree_masks p))) := by
  refine ⟨fun p => mapExtend_lookup _ _ p hwb.1,
    fun p => mapExtend_lookup _ _ p hwb.2.1,
    fun p => mapExtend_lookup _ _ p hwb.2.2.1, ?_, ?_, ?_⟩
  · intro k sb hb ha
    rw [extend_storages_lookup a b k hwb.2.2.2.1, hb, ha]
  · intro k sa ha hb
    rw [extend_storages_lookup a b k hwb.2.2.2.1, hb]
    exact ha
  · intro k sa sb ha hb
    have hsbwf : smpWF sb := hwb.2.2.2.2 (k, sb) (mapLookup_mem hb)
    refine ⟨extendStorageEntry sa sb, ?_, rfl, (hroot k sa sb ha hb).symm ▸ rfl,
      fun p => mapExtend_lookup _ _ p hsbwf.1,
      fun p => mapExtend_lookup _ _ p hsbwf.2.1,
      fun p => mapExtend_lookup _ _ p hsbwf.2.2⟩
    rw [extend_storages_lookup a b k hwb.2.2.2.1, hb, ha]

/-- C9: in `MultiProof::extend`, a branch path recorded in both sides' mask
maps — at the account level or inside a storage entry present on both sides
— binds the mask value taken from the argument (`other`) in the merged
result: conflicts are resolved last-write-wins, silently. -/
theorem extend_masks_last_write_wins (a b : MultiProof) :
    (∀ (p : Nib) (va vb : TrieMask), (mapKeys b.branch_node_hash_masks).Nodup →
      mapLookup a.branch_node_hash_masks p = some va →
      mapLookup b.branch_node_hash_masks p = some vb →
      mapLookup (a.extend b).branch_node_hash_masks p = some vb)
    ∧ (∀ (p : Nib) (va vb : TrieMask), (mapKeys b.branch_node_tree_masks).Nodup →
      mapLookup a.branch_node_tree_masks p = some va →
      mapLookup b.branch_node_tree_masks p = some vb →
      mapLookup (a.extend b).branch_node_tree_masks p = some vb)
    ∧ (∀ (k : B256) (sa sb : StorageMultiProof) (p : Nib) (ma mb : TrieMask),
      (mapKeys b.storages).Nodup → smpWF sb →
      mapLookup a.storages k = some sa → mapLookup b.storages k = some sb →
      (mapLookup sa.branch_node_hash_masks p = some ma →
        mapLookup sb.branch_node_hash_masks p = some mb →
        ∃ sc : StorageMultiProof, mapLookup (a.extend b).storages k = some sc ∧
          mapLookup sc.branch_node_hash_masks p = some mb) ∧
      (mapLookup sa.branch_node_tree_masks p = some ma →
        mapLookup sb.branch_node_tree_masks p = some mb →
        ∃ sc : StorageMultiProof, mapLookup (a.extend b).storages k = some sc ∧
          mapLookup sc.branch_node_tree_masks p = some mb)) := by
  refine ⟨?_, ?_, ?_⟩
  · intro p va vb hn ha hb
    rw [extend_hash_masks, mapExtend_lookup _ _ p hn, hb]
    rfl
  · intro p va vb hn ha hb
    rw [extend_tree_masks, mapExtend_lookup _ _ p hn, hb]
    rfl
  · intro k sa sb p ma mb hn hwfb ha hb
    have hsc : mapLookup (a.extend b).storages k = some (extendStorageEntry sa sb) := by
      rw [extend_storages_lookup a b k hn, hb, ha]
    constructor
    · intro hma hmb
      refine ⟨extendStorageEntry sa sb, hsc, ?_⟩
      rw [extendStorageEntry_hash_masks, mapExtend_lookup _ _ p hwfb.2.1, hmb]
      rfl
    · intro hma hmb
      refine ⟨extendStorageEntry sa sb, hsc, ?_⟩
      rw [extendStorageEntry_tree_masks, mapExtend_lookup _ _ p hwfb.2.2, hmb]
      rfl

/-- C7: for multiproofs over disjoint inputs, `a.extend(b)` and
`b.extend(a)` agree on every `contains` and `matching_nodes` observation of
the account subtree and on every storages lookup; and extending a multiproof
with a copy of itself returns it unchanged. -/
theorem extend_comm_idem (a b : MultiProof) (hwa : mpWF a) (hwb : mpWF b)
    (hd1 : ∀ p : Nib, p ∈ mapKeys b.account_subtree → p ∉ mapKeys a.account_subtree)
    (hd4 : ∀ k : B256, k ∈ mapKeys b.storages → k ∉ mapKeys a.storages) :
    (∀ t : Nib, matchingNodesSorted (a.extend b).account_subtree t =
      matchingNodesSorted (b.extend a).account_subtree t)
    ∧ (∀ p : Nib, mapContains (a.extend b).account_subtree p =
      mapContains (b.extend a).account_subtree p)
    ∧ (∀ k : B256, mapLookup (a.extend b).storages k = mapLookup (b.extend a).storages k)
    ∧ a.extend a = a := by
  have hab : (a.extend b).account_subtree = a.account_subtree ++ b.account_subtree :=
    mapExtend_append hwb.1 hd1
  have hba : (b.extend a).account_subtree = b.account_subtree ++ a.account_subtree :=
    mapExtend_append hwa.1 (fun p hpa hpb => hd1 p hpb hpa)
  have hLk : ∀ p : Nib, mapLookup (a.extend b).account_subtree p =
      mapLookup (b.extend a).account_subtree p := by
    intro p
    rw [extend_account_subtree, mapExtend_lookup _ _ p hwb.1]
    rw [extend_account_subtree, mapExtend_lookup _ _ p hwa.1]
    rcases hA : mapLookup a.account_subtree p with _ | va <;>
      rcases hB : mapLookup b.account_subtree p with _ | vb
    · rfl
    · simp [Option.orElse]
    · simp [Option.orElse]
    · exact absurd (mapLookup_mem_keys hA) (hd1 p (mapLookup_mem_keys hB))
  refine ⟨?_, ?_, ?_, multiProof_extend_self a hwa⟩
  · intro t
    have hnodupKeys : (mapKeys ((a.extend b).account_subtree)).Nodup := by
      rw [hab]
      simp only [mapKeys, List.map_append]
      rw [List.nodup_append]
      exact ⟨hwa.1, hwb.1, fun p hpa hpb => hd1 p hpb hpa⟩
    have hperm : (matchingNodes (a.extend b).account_subtree t).Perm
        (matchingNodes (b.extend a).account_subtree t) := by
      rw [hab, hba]
      simp only [matchingNodes, List.filter_append]
      exact List.perm_append_comm
    have hnodupFilter : (mapKeys (matchingNodes (a.extend b).account_subtree t)).Nodup := by
      refine List.Nodup.sublist ?_ hnodupKeys
      exact List.Sublist.map Prod.fst (List.filter_sublist _)
    exact sortByPath_eq_of_perm hperm hnodupFilter
  · intro p
    simp only [mapContains, hLk p]
  · intro k
    rw [extend_storages_lookup a b k hwb.2.2.2.1,
      extend_storages_lookup b a k hwa.2.2.2.1]
    rcases hA : mapLookup a.storages k with _ | sa <;>
      rcases hB : mapLookup b.storages k with _ | sb
    · rfl
    · simp
    · simp
    · exact absurd (mapLookup_mem_keys hA) (hd4 k (mapLookup_mem_keys hB))

/-! ## Witnesses: the claim theorems applied at concrete inputs -/

theorem accountProof_info_spec_witness :
    apLeaf.info =
      some { nonce := 5, balance := 7,
             bytecode_hash := if (11 : B256) = KECCAK_EMPTY then none else some 11 } :=
  (accountProof_info_spec testExt mpLeaf 0).1 [] [0, 2, 0, 0, 5, 7, 9, 11] [0, 0]
    [5, 7, 9, 11] { nonce := 5, balance := 7, storage_root := 9, code_hash := 11 }
    apLeaf (by decide) (by decide) (by decide) (by decide) (by decide)

theorem storageProof_extraction_spec_witness : spSeven.value = 77 :=
  (storageProof_extraction_spec testExt smpA 0).2.2.1 [0, 2, 0, 0, 77] [0, 0] [77] 77
    spSeven (by decide) (by decide) (by decide) (by decide) (by decide)

theorem accountProof_verify_spec_witness :
    apTwo.verify testExtSel 0 = Except.error 9 :=
  (accountProof_verify_spec testExtSel apTwo 0).1 1 spThree 9 (by decide) (by decide)
    (by
      intro j spj hj hg
      have hj0 : j = 0 := by omega
      subst hj0
      simp only [apTwo, List.getElem?_cons_zero, Option.some.injEq] at hg
      rw [← hg]
      decide)

theorem accountProof_storage_absent_witness :
    apSlot.storage_root = EMPTY_ROOT_HASH ∧
    apSlot.storage_proofs = [(3 : B256)].map (fun s =>
      { key := s, nibbles := Nibbles.unpack (testExt.keccakSlot s), value := 0,
        proof := [] }) :=
  ((accountProof_storage_absent testExt mpLeaf 0 [3]).1 (by decide)).1 apSlot (by decide)

theorem multiProof_extend_spec_witness :
    mapLookup (mpA.extend mpB).account_subtree [0] =
      (mapLookup mpB.account_subtree [0]).orElse
        (fun _ => mapLookup mpA.account_subtree [0]) :=
  (multiProof_extend_spec mpA mpB (by decide) (by decide)
    (by
      intro k sa sb ha hb
      simp only [mpA, mpB, mapLookup] at ha hb
      by_cases hk : (1 : B256) = k
      · rw [if_pos hk] at ha hb
        injection ha with ha'
        injection hb with hb'
        rw [← ha', ← hb']
        decide
      · rw [if_neg hk] at ha
        exact absurd ha (by simp))).1 [0]

theorem extend_comm_idem_witness : mpA.extend mpA = mpA :=
  (extend_comm_idem mpA mpC (by decide) (by decide)
    (by
      intro p hpb hpa
      simp only [mapKeys, mpC, List.map_cons, List.map_nil, List.mem_singleton] at hpb
      subst hpb
      simp [mapKeys, mpA] at hpa)
    (by
      intro k hkb hka
      simp only [mapKeys, mpC, List.map_cons, List.map_nil, List.mem_singleton] at hkb
      subst hkb
      simp [mapKeys, mpA] at hka)).2.2.2

theorem decoded_storageProof_equiv_witness :
    (smpA.storage_proof testExt 0).map (fun sp => (sp.key, sp.nibbles, sp.value)) =
      (dmpA.storage_proof testExt 0).map (fun dp => (dp.key, dp.nibbles, dp.value)) :=
  decoded_storageProof_equiv testExt smpA dmpA 0
    (by
      refine List.Forall₂.cons ⟨rfl, ?_⟩ List.Forall₂.nil
      decide)

theorem extend_masks_last_write_wins_witness :
    mapLookup (mpA.extend mpB).branch_node_hash_masks [0] = some 7 :=
  (extend_masks_last_write_wins mpA mpB).1 [0] 1 7 (by decide) (by decide) (by decide)

theorem extraction_decodes_only_last_witness :
    ∃ lastB : Bytes,
      ((matchingNodesSorted smpBad.subtree
        (Nibbles.unpack (testExt.keccakSlot 0))).map Prod.snd).getLast? = some lastB ∧
      (testExt.decodeNode lastB = Except.error 1 ∨
        ∃ (k : Nib) (v : Bytes),
          testExt.decodeNode lastB = Except.ok (TrieNode.leaf k v) ∧
          k.isSuffixOf (Nibbles.unpack (testExt.keccakSlot 0)) = true ∧
          testExt.decodeU256 v = Except.error 1) :=
  (extraction_decodes_only_last testExt).1 smpBad 0 1 (by decide)

end TrieProofs
